import Mathlib

/-!
Verification of the SES suppression-list manager (`src/main.go`).

The Go program keeps an in-memory mirror of the remote suppression list:

  * `Server.list`  : sorted slice of original-case addresses,
  * `Server.index` : map from lowercased address to original case,

with `refresh` (full paginated re-fetch, case-insensitive sort, index
rebuild, atomic swap) and `handleRemove` (per-line lookup, remote delete,
cache prune).  This file shallowly embeds those operations and proves the
specified properties about them.
-/

namespace Suppress

/-! ### Strings: lowercasing (Go `strings.ToLower`, ASCII range) -/

/-- Embedding of Go `strings.ToLower`: lowercase every character
(`Char.toLower` handles the basic-latin range, as the addresses here are
ASCII text). -/
def lowerStr (s : String) : String := ⟨s.data.map Char.toLower⟩

/-- Lexicographic `≤` on character sequences: the embedding of Go's
byte-wise string comparison (they agree on the ASCII text handled here). -/
def leChars : List Char → List Char → Bool
  | [], _ => true
  | _ :: _, [] => false
  | a :: as, b :: bs =>
    if a.toNat < b.toNat then true
    else if b.toNat < a.toNat then false
    else leChars as bs

/-- Go `strings.TrimSpace`: drop whitespace from both ends. -/
def trimGo (s : String) : String :=
  ⟨((s.data.dropWhile Char.isWhitespace).reverse.dropWhile Char.isWhitespace).reverse⟩

/-- Go `strings.Split(s, "\n")`, on the character sequence: the segments
between newline characters, empties preserved. -/
def splitLinesAux : List Char → List Char → List (List Char)
  | [], cur => [cur.reverse]
  | c :: rest, cur =>
    if c = '\n' then cur.reverse :: splitLinesAux rest []
    else splitLinesAux rest (c :: cur)

/-- Go `strings.Split(s, "\n")`. -/
def splitLines (s : String) : List String :=
  (splitLinesAux s.data []).map (fun l => ⟨l⟩)

/-! ### The remote directory client (AWS SESv2, external collaborator)

`ListSuppressedDestinations` is modelled as a function from the request
arguments that `refresh` sends — the pagination cursor (`NextToken`) and
the page size — to either an error or a page: a list of addresses plus an
optional next cursor.  `DeleteSuppressedDestination` is a function from the
address to an error or success. -/

/-- One page returned by the remote list operation: the addresses of the
page and the optional continuation cursor (`NextToken`). -/
structure ListOutput where
  addrs : List String
  nextToken : Option String
deriving DecidableEq

/-- The remote list operation: cursor and page size to page or error. -/
def Remote : Type := Option String → Nat → Except String ListOutput

/-- The remote delete operation: address to success or error. -/
def DeleteRemote : Type := String → Except String Unit

/-! ### The cache (`Server.list` / `Server.index`) -/

/-- The lookup map `index : lowercase → original case`.  A Go map is
extensional, so it is embedded as a function to `Option`. -/
def Index : Type := String → Option String

/-- The empty map (`make(map[string]string)`). -/
def emptyIndex : Index := fun _ => none

/-- Go map assignment `idx[k] = v` (overwrites any previous value). -/
def indexInsert (idx : Index) (k v : String) : Index :=
  fun q => if q = k then some v else idx q

/-- Go `delete(idx, k)`. -/
def indexDelete (idx : Index) (k : String) : Index :=
  fun q => if q = k then none else idx q

/-- The shared cache guarded by `Server.listMu`: the sorted entry slice and
the lowercase lookup map.  Each operation of the embedding is a whole-state
transition, matching the code's discipline of updating both fields inside
one exclusive critical section. -/
structure Cache where
  entries : List String
  index : Index

/-- The cache at process start: empty slice, empty map. -/
def initCache : Cache := { entries := [], index := emptyIndex }

/-- `snapshot` (`handleList`'s copy): the current entry sequence. -/
def snapshot (s : Cache) : List String := s.entries

/-! ### refresh -/

/-- The comparison used by `refresh`'s sort
(`strings.ToLower(emails[i]) < strings.ToLower(emails[j])`), stated as the
reflexive relation `lower a ≤ lower b` that the sorted output satisfies. -/
def lowerLE (a b : String) : Prop :=
  leChars (lowerStr a).data (lowerStr b).data = true

instance instDecLowerLE : DecidableRel lowerLE :=
  fun a b => inferInstanceAs (Decidable (leChars (lowerStr a).data (lowerStr b).data = true))

/-- The case-insensitive ascending sort of `refresh`
(`sort.Slice(emails, lower a < lower b)`), embedded as insertion sort
keyed on the lowercased form.  `sort.Slice` guarantees only
`SortSliceOutput` below — a sorted permutation; it is documented as NOT
stable, so the relative order it installs among addresses with equal
lowercased forms is unspecified.  Insertion sort is one concrete
realization of that contract; program-level properties are stated against
`SortSliceOutput`, never against this realization's tie order. -/
def sortEmails (emails : List String) : List String :=
  List.insertionSort lowerLE emails

/-- The guarantee Go documents for `sort.Slice(emails, less)` with
`refresh`'s comparator: the installed slice is some permutation of the
input that is ordered by the comparator.  Nothing more is guaranteed: the
relative order of addresses whose lowercased forms are equal is
unspecified (`sort.Slice` is not stable). -/
def SortSliceOutput (input output : List String) : Prop :=
  output.Perm input ∧ List.Sorted lowerLE output

/-- The index-building loop of `refresh`:
`for _, e := range emails { idx[strings.ToLower(e)] = e }`
(applied by the code to the already-sorted slice; later assignments to the
same lowercase key overwrite earlier ones). -/
def buildIndex (emails : List String) : Index :=
  emails.foldl (fun idx e => indexInsert idx (lowerStr e) e) emptyIndex

/-- The pagination loop of `refresh`.  `fuel` bounds the number of remote
calls (an artifact of the embedding; the claims quantify over terminating
interactions).  The first component records, as ghost information, the
argument pair `(NextToken, PageSize)` of every remote call made; the
second is the loop's outcome: the concatenated addresses of all pages, or
the first error. -/
def fetchGo (remote : Remote) : Nat → Option String → List (Option String × Nat) × Except String (List String)
  | 0, _ => ([], Except.error "fetch did not terminate")
  | fuel+1, tok =>
    match remote tok 1000 with
    | Except.error e => ([(tok, 1000)], Except.error e)
    | Except.ok out =>
      match out.nextToken with
      | none => ([(tok, 1000)], Except.ok out.addrs)
      | some t =>
        let r := fetchGo remote fuel (some t)
        ((tok, 1000) :: r.1, r.2.map (fun rest => out.addrs ++ rest))

/-- `Server.refresh`: full paginated fetch; on error, propagate it (the
caller's cache is untouched); on success, sort case-insensitively, build
the fresh index from the sorted slice, and swap both structures in
together. -/
def refresh (remote : Remote) (fuel : Nat) : Except String Cache :=
  match (fetchGo remote fuel none).2 with
  | Except.error e => Except.error e
  | Except.ok emails =>
    let sorted := sortEmails emails
    Except.ok { entries := sorted, index := buildIndex sorted }

/-- The cache as seen after a `refresh` call that started from state `s`:
the fresh cache on success, `s` itself on error. -/
def refreshState (remote : Remote) (fuel : Nat) (s : Cache) : Cache :=
  match refresh remote fuel with
  | Except.error _ => s
  | Except.ok s' => s'

/-! ### remove -/

/-- The deletion loop in `handleRemove`'s cache update:
scan `s.list`, splice out the first element equal to `orig`, stop. -/
def removeFirst : List String → String → List String
  | [], _ => []
  | v :: rest, orig => if v = orig then rest else v :: removeFirst rest orig

/-- One iteration of `handleRemove`'s loop for a single input line:
resolve the lowercased input in `index`; if absent report not-found; else
call the remote delete with the original-case form; on remote error report
it and leave the cache alone; on success delete the lowercase key and the
first matching entry together and report `removed: <original case>`. -/
def removeOne (del : DeleteRemote) (s : Cache) (input : String) : Cache × String :=
  let key := lowerStr input
  match s.index key with
  | none => (s, "not found: " ++ input)
  | some orig =>
    match del orig with
    | Except.error e => (s, "error: " ++ input ++ " (" ++ e ++ ")")
    | Except.ok _ =>
      ({ entries := removeFirst s.entries orig, index := indexDelete s.index key },
       "removed: " ++ orig)

/-- `handleRemove`'s input preparation: split the `emails` field on
newline, trim whitespace from each line, drop empty lines. -/
def parseInputs (emails : String) : List String :=
  ((splitLines emails).map trimGo).filter (fun l => l != "")

/-- `handleRemove`'s main loop: process each input line in order,
threading the cache and collecting one result string per line. -/
def processRemovals (del : DeleteRemote) : Cache → List String → Cache × List String
  | s, [] => (s, [])
  | s, input :: rest =>
    let p := removeOne del s input
    let q := processRemovals del p.1 rest
    (q.1, p.2 :: q.2)

/-- The whole `/remove` body handling for a well-formed JSON body: parse
the lines, run the removal loop. -/
def handleRemove (del : DeleteRemote) (s : Cache) (emails : String) : Cache × List String :=
  processRemovals del s (parseInputs emails)

/-! ### JSON responses (`respondJSON` and Go nil-slice encoding) -/

/-- The fragment of JSON values these handlers can produce: `null`, an
array of strings, or an object. -/
inductive JValue where
  | null : JValue
  | arr : List String → JValue
  | obj : List (String × JValue) → JValue

/-- How `encoding/json` renders the string slices built by the handlers.
Both `handleList`'s copy `append([]string(nil), s.list...)` and
`handleRemove`'s `var results []string` accumulator are nil exactly when
they hold no elements, and a nil slice encodes as the JSON literal
`null`. -/
def encodeGoStringSlice (l : List String) : JValue :=
  if l = [] then JValue.null else JValue.arr l

/-- The `/list` response body for cache state `s`. -/
def listResponse (s : Cache) : JValue :=
  encodeGoStringSlice (snapshot s)

/-- The `/remove` 200 response body: `{"results": <results slice>}`. -/
def removeResponse (del : DeleteRemote) (s : Cache) (emails : String) : JValue :=
  JValue.obj [("results", encodeGoStringSlice (handleRemove del s emails).2)]

/-! ### Witness fixtures and specification-level predicates -/

/-- A remote whose responses, starting from cursor `tok`, form a chain of
successful pages `pages` linked by the cursors `cursors`, the final page
carrying no continuation cursor. -/
inductive ServesChain (remote : Remote) : Option String → List (List String) → List String → Prop
  | last (tok : Option String) (a : List String) :
      remote tok 1000 = Except.ok { addrs := a, nextToken := none } →
      ServesChain remote tok [a] []
  | step (tok : Option String) (a : List String) (t : String)
      (rest : List (List String)) (ts : List String) :
      remote tok 1000 = Except.ok { addrs := a, nextToken := some t } →
      ServesChain remote (some t) rest ts →
      ServesChain remote tok (a :: rest) (t :: ts)

/-- A remote whose responses, starting from cursor `tok`, give `n - 1`
successful cursor-linked pages and then an error `e` on the `n`-th call. -/
inductive ChainErrors (remote : Remote) : Option String → String → Nat → Prop
  | here (tok : Option String) (e : String) :
      remote tok 1000 = Except.error e → ChainErrors remote tok e 1
  | step (tok : Option String) (a : List String) (t : String) (e : String) (n : Nat) :
      remote tok 1000 = Except.ok { addrs := a, nextToken := some t } →
      ChainErrors remote (some t) e n →
      ChainErrors remote tok e (n + 1)

/-- The contract of one removal result string: it is the not-found report,
the success report with the original-case form, or the error report with
the input as given, according to the cache state `s` at that step. -/
def ResultMatches (del : DeleteRemote) (s : Cache) (input r : String) : Prop :=
  (s.index (lowerStr input) = none ∧ r = "not found: " ++ input) ∨
  (∃ orig, s.index (lowerStr input) = some orig ∧ del orig = Except.ok () ∧
    r = "removed: " ++ orig) ∨
  (∃ orig e, s.index (lowerStr input) = some orig ∧ del orig = Except.error e ∧
    r = "error: " ++ input ++ " (" ++ e ++ ")")

/-- No two addresses of the list share a lowercased form (this also rules
out duplicates). -/
def NoCaseCollision (l : List String) : Prop :=
  l.Pairwise (fun a b => lowerStr a ≠ lowerStr b)

/-- The documented cache invariant: keys of `index` are lowercased-fixed,
every entry is found under its lowercase key with its own original case,
and every value of `index` is a current entry. -/
def CacheInv (s : Cache) : Prop :=
  (∀ k v, s.index k = some v → lowerStr k = k) ∧
  (∀ a, a ∈ s.entries → s.index (lowerStr a) = some a) ∧
  (∀ k v, s.index k = some v → v ∈ s.entries)

/-- Strengthening of `CacheInv` that is inductive for the operations:
additionally every index key is the lowercasing of its value, and the
entries are collision-free. -/
def StrongInv (s : Cache) : Prop :=
  CacheInv s ∧ (∀ k v, s.index k = some v → k = lowerStr v) ∧ NoCaseCollision s.entries

/-- The cache states the program can be in: the initial empty cache, the
result of a successful refresh whose fetched addresses are collision-free
(the claims' precondition), and the result of any removal step.  A failed
refresh and a failed or not-found removal leave the state unchanged, so
they introduce no further states. -/
inductive Reachable : Cache → Prop
  | init : Reachable initCache
  | refresh (remote : Remote) (fuel : Nat) (s s' : Cache) (emails : List String) :
      Reachable s →
      (fetchGo remote fuel none).2 = Except.ok emails →
      NoCaseCollision emails →
      refresh remote fuel = Except.ok s' →
      Reachable s'
  | removal (del : DeleteRemote) (s : Cache) (input : String) :
      Reachable s → Reachable (removeOne del s input).1

/-- Concrete two-page remote used by witnesses. -/
def remoteOkW : Remote := fun tok _ =>
  match tok with
  | none => Except.ok { addrs := ["b@x.com", "A@x.com"], nextToken := some "p2" }
  | some t =>
    if t = "p2" then Except.ok { addrs := ["c@x.com"], nextToken := none }
    else Except.error "bad cursor"

/-- Concrete remote whose second page request fails. -/
def remoteErrW : Remote := fun tok _ =>
  match tok with
  | none => Except.ok { addrs := ["b@x.com"], nextToken := some "p2" }
  | some _ => Except.error "boom"

/-- Concrete cache holding one address, used by witnesses. -/
def sampleCache : Cache :=
  { entries := ["A@x.com"], index := buildIndex ["A@x.com"] }

/-- Concrete remote delete that succeeds for the sample address. -/
def delOkW : DeleteRemote := fun a =>
  if a = "A@x.com" then Except.ok () else Except.error "unexpected delete"

/-- Concrete remote delete that always fails. -/
def delErrW : DeleteRemote := fun _ => Except.error "boom"

/-- The cache produced by refreshing against `remoteOkW`. -/
def refreshedCacheW : Cache :=
  { entries := ["A@x.com", "b@x.com", "c@x.com"],
    index := buildIndex ["A@x.com", "b@x.com", "c@x.com"] }

/-! ### Development -/

theorem charToNat_ofNat_valid (n : Nat) (h : n.isValidChar) : (Char.ofNat n).toNat = n := by
  unfold Char.ofNat
  rw [dif_pos h]
  rfl

theorem charToLower_idem (c : Char) : c.toLower.toLower = c.toLower := by
  by_cases h : c.toNat ≥ 65 ∧ c.toNat ≤ 90
  · have hv : (c.toNat + 32).isValidChar := Or.inl (by omega)
    have ht : (Char.ofNat (c.toNat + 32)).toNat = c.toNat + 32 := charToNat_ofNat_valid _ hv
    unfold Char.toLower
    simp only []
    rw [if_pos h, ht, if_neg (by omega)]
  · unfold Char.toLower
    simp only [h, if_false]

theorem lowerStr_idem (s : String) : lowerStr (lowerStr s) = lowerStr s := by
  unfold lowerStr
  simp [List.map_map, Function.comp_def, charToLower_idem]

theorem leChars_cons_iff (a b : Char) (as bs : List Char) :
    leChars (a :: as) (b :: bs) = true ↔
      a.toNat < b.toNat ∨ (a.toNat = b.toNat ∧ leChars as bs = true) := by
  show (if a.toNat < b.toNat then true
        else if b.toNat < a.toNat then false else leChars as bs) = true ↔ _
  split_ifs with h1 h2
  · simp [h1]
  · constructor
    · intro h; cases h
    · rintro (h | ⟨he, hr⟩) <;> omega
  · have he : a.toNat = b.toNat := by omega
    simp [he]

theorem leChars_trans : ∀ as bs cs, leChars as bs = true → leChars bs cs = true → leChars as cs = true
  | [], _, _, _, _ => rfl
  | _ :: _, [], _, h1, _ => by simp [leChars] at h1
  | _ :: _, _ :: _, [], _, h2 => by simp [leChars] at h2
  | a :: as, b :: bs, c :: cs, h1, h2 => by
    rw [leChars_cons_iff] at h1 h2 ⊢
    rcases h1 with h1 | ⟨h1e, h1r⟩ <;> rcases h2 with h2 | ⟨h2e, h2r⟩
    · left; omega
    · left; omega
    · left; omega
    · right
      exact ⟨by omega, leChars_trans as bs cs h1r h2r⟩

theorem leChars_total : ∀ as bs, leChars as bs = true ∨ leChars bs as = true
  | [], _ => Or.inl rfl
  | _ :: _, [] => Or.inr rfl
  | a :: as, b :: bs => by
    rw [leChars_cons_iff, leChars_cons_iff]
    rcases Nat.lt_trichotomy a.toNat b.toNat with h | h | h
    · left; left; exact h
    · rcases leChars_total as bs with ih | ih
      · left; right; exact ⟨h, ih⟩
      · right; right; exact ⟨h.symm, ih⟩
    · right; left; exact h

instance : IsTotal String lowerLE :=
  ⟨fun a b => leChars_total (lowerStr a).data (lowerStr b).data⟩

instance : IsTrans String lowerLE :=
  ⟨fun _ _ _ h1 h2 => leChars_trans _ _ _ h1 h2⟩

theorem sortEmails_perm (l : List String) : (sortEmails l).Perm l :=
  List.perm_insertionSort lowerLE l

theorem sortEmails_sorted (l : List String) : List.Sorted lowerLE (sortEmails l) :=
  List.sorted_insertionSort lowerLE l

theorem leChars_refl : ∀ as, leChars as as = true
  | [] => rfl
  | a :: as => by
    show (if a.toNat < a.toNat then true
          else if a.toNat < a.toNat then false else leChars as as) = true
    simp [leChars_refl as]

theorem lower_ne_of_not_lowerLE {a b : String} (h : ¬ lowerLE a b) :
    lowerStr b ≠ lowerStr a := by
  intro he
  exact h (by unfold lowerLE; rw [he]; exact leChars_refl _)

theorem filter_orderedInsert (k a : String) (l : List String) :
    (List.orderedInsert lowerLE a l).filter (fun e => lowerStr e == k) =
      if lowerStr a == k then a :: l.filter (fun e => lowerStr e == k)
      else l.filter (fun e => lowerStr e == k) := by
  induction l with
  | nil =>
    simp only [List.orderedInsert_nil, List.filter]
    cases hpa : (lowerStr a == k) <;> simp
  | cons b t ih =>
    by_cases hab : lowerLE a b
    · have hstep : List.orderedInsert lowerLE a (b :: t) = a :: b :: t := by
        simp [List.orderedInsert, hab]
      rw [hstep, List.filter_cons, List.filter_cons]
    · have hstep : List.orderedInsert lowerLE a (b :: t) = b :: List.orderedInsert lowerLE a t := by
        simp [List.orderedInsert, hab]
      rw [hstep, List.filter_cons, ih, List.filter_cons]
      cases hpa : (lowerStr a == k)
      · simp
      · have hk : lowerStr a = k := by simpa using hpa
        have hpb : (lowerStr b == k) = false := by
          apply beq_eq_false_iff_ne.mpr
          rw [← hk]
          exact lower_ne_of_not_lowerLE hab
        simp [hpb]

theorem filter_sortEmails (k : String) (l : List String) :
    (sortEmails l).filter (fun e => lowerStr e == k) = l.filter (fun e => lowerStr e == k) := by
  induction l with
  | nil => rfl
  | cons a t ih =>
    show (List.orderedInsert lowerLE a (List.insertionSort lowerLE t)).filter _ = _
    rw [filter_orderedInsert, List.filter_cons]
    show _ = (if (lowerStr a == k) = true then a :: _ else _)
    rw [← ih]
    rfl

theorem foldl_indexInsert (k : String) :
    ∀ (l : List String) (idx : Index),
      (l.foldl (fun idx e => indexInsert idx (lowerStr e) e) idx) k =
        (l.reverse.find? (fun e => lowerStr e == k)).or (idx k)
  | [], idx => rfl
  | e :: t, idx => by
    show (t.foldl (fun idx e => indexInsert idx (lowerStr e) e) (indexInsert idx (lowerStr e) e)) k = _
    rw [foldl_indexInsert k t]
    rw [List.reverse_cons, List.find?_append, Option.or_assoc]
    congr 1
    show indexInsert idx (lowerStr e) e k = ([e].find? (fun e => lowerStr e == k)).or (idx k)
    by_cases hk : k = lowerStr e
    · simp [indexInsert, hk, List.find?]
    · have : (lowerStr e == k) = false := by
        apply beq_eq_false_iff_ne.mpr
        exact fun h => hk h.symm
      simp [indexInsert, hk, List.find?, this]

theorem buildIndex_eq (l : List String) (k : String) :
    buildIndex l k = (l.filter (fun e => lowerStr e == k)).getLast? := by
  rw [List.filter_getLast?]
  have h := foldl_indexInsert k l emptyIndex
  simpa [buildIndex, emptyIndex, Option.or_none] using h

theorem removeFirst_sublist : ∀ (l : List String) (orig : String), (removeFirst l orig).Sublist l
  | [], _ => List.Sublist.refl []
  | v :: rest, orig => by
    show (if v = orig then rest else v :: removeFirst rest orig).Sublist (v :: rest)
    by_cases h : v = orig
    · simp [h]
    · simpa [h] using (removeFirst_sublist rest orig).cons₂ v

theorem mem_of_mem_removeFirst {v orig : String} {l : List String}
    (h : v ∈ removeFirst l orig) : v ∈ l :=
  (removeFirst_sublist l orig).mem h

theorem mem_removeFirst_of_ne {v orig : String} (hne : v ≠ orig) :
    ∀ {l : List String}, v ∈ l → v ∈ removeFirst l orig := by
  intro l
  induction l with
  | nil => intro h; cases h
  | cons b t ih =>
    intro hv
    show v ∈ (if b = orig then t else b :: removeFirst t orig)
    rcases List.mem_cons.mp hv with hb | ht
    · subst hb
      rw [if_neg hne]
      exact List.mem_cons_self v _
    · by_cases hb : b = orig
      · rw [if_pos hb]; exact ht
      · rw [if_neg hb]; exact List.mem_cons_of_mem b (ih ht)

theorem not_mem_removeFirst_self : ∀ {l : List String}, l.Nodup → ∀ orig, orig ∉ removeFirst l orig := by
  intro l
  induction l with
  | nil => intro _ orig h; cases h
  | cons b t ih =>
    intro hnd orig
    show orig ∉ (if b = orig then t else b :: removeFirst t orig)
    rcases List.nodup_cons.mp hnd with ⟨hb, hnt⟩
    by_cases h : b = orig
    · rw [if_pos h]; subst h; exact hb
    · rw [if_neg h]
      intro hmem
      rcases List.mem_cons.mp hmem with hh | hh
      · exact h hh.symm
      · exact ih hnt orig hh

theorem removeFirst_append : ∀ {l1 : List String} (l2 : List String) {orig : String},
    orig ∉ l1 → removeFirst (l1 ++ orig :: l2) orig = l1 ++ l2 := by
  intro l1
  induction l1 with
  | nil => intro l2 orig _; show (if orig = orig then l2 else _) = l2; rw [if_pos rfl]
  | cons b t ih =>
    intro l2 orig h
    have hb : b ≠ orig := fun he => h (he ▸ List.mem_cons_self b t)
    show (if b = orig then t ++ orig :: l2 else b :: removeFirst (t ++ orig :: l2) orig) = b :: (t ++ l2)
    rw [if_neg hb, ih l2 (fun hm => h (List.mem_cons_of_mem b hm))]

theorem fetchGo_chain (remote : Remote) :
    ∀ {tok : Option String} {pages : List (List String)} {cursors : List String},
      ServesChain remote tok pages cursors →
      ∀ fuel, pages.length ≤ fuel →
      fetchGo remote fuel tok =
        ((tok :: cursors.map some).map (fun t => (t, 1000)), Except.ok pages.flatten) := by
  intro tok pages cursors h
  induction h with
  | last tok a hr =>
    intro fuel hf
    match fuel, hf with
    | fuel + 1, _ =>
      show (match remote tok 1000 with
            | Except.error e => ([(tok, 1000)], Except.error e)
            | Except.ok out => _) = _
      rw [hr]
      simp [List.flatten]
  | step tok a t rest ts hr _ ih =>
    intro fuel hf
    match fuel, hf with
    | fuel + 1, hf =>
      have hlen : rest.length ≤ fuel := by
        simpa [Nat.succ_le_succ_iff] using hf
      show (match remote tok 1000 with
            | Except.error e => ([(tok, 1000)], Except.error e)
            | Except.ok out => _) = _
      rw [hr]
      simp only []
      rw [ih fuel hlen]
      simp [List.flatten, Except.map]

theorem fetchGo_error (remote : Remote) :
    ∀ {tok : Option String} {e : String} {n : Nat},
      ChainErrors remote tok e n →
      ∀ fuel, n ≤ fuel →
      (fetchGo remote fuel tok).2 = Except.error e := by
  intro tok e n h
  induction h with
  | here tok e hr =>
    intro fuel hf
    match fuel, hf with
    | fuel + 1, _ =>
      show (match remote tok 1000 with
            | Except.error e => ([(tok, 1000)], Except.error e)
            | Except.ok out => _).2 = _
      rw [hr]
  | step tok a t e n hr _ ih =>
    intro fuel hf
    match fuel, hf with
    | fuel + 1, hf =>
      have hlen : n ≤ fuel := by simpa [Nat.succ_le_succ_iff] using hf
      show (match remote tok 1000 with
            | Except.error e => ([(tok, 1000)], Except.error e)
            | Except.ok out => _).2 = _
      rw [hr]
      simp only []
      rw [ih fuel hlen]
      rfl

theorem refresh_of_fetch_error {remote : Remote} {fuel : Nat} {e : String}
    (h : (fetchGo remote fuel none).2 = Except.error e) :
    refresh remote fuel = Except.error e := by
  unfold refresh
  rw [h]

theorem refreshState_of_fetch_error {remote : Remote} {fuel : Nat} {e : String} (s : Cache)
    (h : (fetchGo remote fuel none).2 = Except.error e) :
    refreshState remote fuel s = s := by
  unfold refreshState
  rw [refresh_of_fetch_error h]

theorem refresh_of_fetch_ok {remote : Remote} {fuel : Nat} {emails : List String}
    (h : (fetchGo remote fuel none).2 = Except.ok emails) :
    refresh remote fuel =
      Except.ok { entries := sortEmails emails, index := buildIndex (sortEmails emails) } := by
  unfold refresh
  rw [h]

theorem removeOne_notFound {del : DeleteRemote} {s : Cache} {input : String}
    (h : s.index (lowerStr input) = none) :
    removeOne del s input = (s, "not found: " ++ input) := by
  simp [removeOne, h]

theorem removeOne_error {del : DeleteRemote} {s : Cache} {input orig e : String}
    (h1 : s.index (lowerStr input) = some orig) (h2 : del orig = Except.error e) :
    removeOne del s input = (s, "error: " ++ input ++ " (" ++ e ++ ")") := by
  simp [removeOne, h1, h2]

theorem removeOne_ok {del : DeleteRemote} {s : Cache} {input orig : String}
    (h1 : s.index (lowerStr input) = some orig) (h2 : del orig = Except.ok ()) :
    removeOne del s input =
      ({ entries := removeFirst s.entries orig, index := indexDelete s.index (lowerStr input) },
       "removed: " ++ orig) := by
  simp [removeOne, h1, h2]

theorem removeOne_matches (del : DeleteRemote) (s : Cache) (input : String) :
    ResultMatches del s input (removeOne del s input).2 := by
  rcases hk : s.index (lowerStr input) with _ | orig
  · left
    exact ⟨hk, by rw [removeOne_notFound hk]⟩
  · rcases hd : del orig with e | u
    · right; right
      exact ⟨orig, e, hk, hd, by rw [removeOne_error hk hd]⟩
    · cases u
      right; left
      exact ⟨orig, hk, hd, by rw [removeOne_ok hk hd]⟩

theorem processRemovals_length (del : DeleteRemote) :
    ∀ (inputs : List String) (s : Cache),
      (processRemovals del s inputs).2.length = inputs.length
  | [], _ => rfl
  | input :: rest, s => by
    show ((processRemovals del (removeOne del s input).1 rest).2.length) + 1 = rest.length + 1
    rw [processRemovals_length del rest]

theorem processRemovals_results (del : DeleteRemote) :
    ∀ (inputs : List String) (s : Cache) (i : Nat) (input : String),
      inputs[i]? = some input →
      ∃ r, (processRemovals del s inputs).2[i]? = some r ∧
        ResultMatches del (processRemovals del s (inputs.take i)).1 input r
  | [], _, i, _, h => by simp at h
  | input0 :: rest, s, 0, input, h => by
    have he : input0 = input := by simpa using h
    subst he
    refine ⟨(removeOne del s input0).2, by simp [processRemovals], ?_⟩
    exact removeOne_matches del s input0
  | input0 :: rest, s, i + 1, input, h => by
    have h' : rest[i]? = some input := by simpa using h
    obtain ⟨r, hr, hm⟩ := processRemovals_results del rest (removeOne del s input0).1 i input h'
    refine ⟨r, ?_, ?_⟩
    · simpa [processRemovals] using hr
    · simpa [List.take_succ_cons, processRemovals] using hm

theorem NoCaseCollision.nodup {l : List String} (h : NoCaseCollision l) : l.Nodup :=
  h.imp (fun hab he => hab (congrArg lowerStr he))

theorem filter_lower_eq_single {l : List String} (h : NoCaseCollision l)
    {a : String} (ha : a ∈ l) :
    l.filter (fun e => lowerStr e == lowerStr a) = [a] := by
  induction l with
  | nil => cases ha
  | cons b t ih =>
    rcases List.pairwise_cons.mp h with ⟨hb, ht⟩
    rcases List.mem_cons.mp ha with he | hmem
    · rw [he, List.filter_cons, if_pos (by simp)]
      have hnil : t.filter (fun e => lowerStr e == lowerStr b) = [] := by
        rw [List.filter_eq_nil_iff]
        intro x hx
        simp only [beq_iff_eq]
        exact fun hxe => (hb x hx) hxe.symm
      rw [hnil]
    · rw [List.filter_cons]
      have : (lowerStr b == lowerStr a) = false := by
        apply beq_eq_false_iff_ne.mpr
        exact hb a hmem
      rw [if_neg (by simp [this])]
      exact ih ht hmem

theorem strongInv_init : StrongInv initCache := by
  refine ⟨⟨?_, ?_, ?_⟩, ?_, ?_⟩
  · intro k v h; cases h
  · intro a ha; cases ha
  · intro k v h; cases h
  · intro k v h; cases h
  · exact List.Pairwise.nil

theorem strongInv_refresh {emails : List String} (h : NoCaseCollision emails) :
    StrongInv { entries := sortEmails emails, index := buildIndex (sortEmails emails) } := by
  have hchar : ∀ k, buildIndex (sortEmails emails) k =
      (emails.filter (fun e => lowerStr e == k)).getLast? := by
    intro k
    rw [buildIndex_eq, filter_sortEmails]
  have hmemval : ∀ k v, buildIndex (sortEmails emails) k = some v →
      v ∈ emails ∧ lowerStr v = k := by
    intro k v hv
    rw [hchar] at hv
    have hm := List.mem_of_getLast?_eq_some hv
    rcases List.mem_filter.mp hm with ⟨hin, hp⟩
    exact ⟨hin, by simpa using hp⟩
  refine ⟨⟨?_, ?_, ?_⟩, ?_, ?_⟩
  · intro k v hv
    rcases hmemval k v hv with ⟨_, hl⟩
    rw [← hl, lowerStr_idem]
  · intro a ha
    have hmem : a ∈ emails := (sortEmails_perm emails).mem_iff.mp ha
    show buildIndex (sortEmails emails) (lowerStr a) = some a
    rw [hchar, filter_lower_eq_single h hmem]
    rfl
  · intro k v hv
    rcases hmemval k v hv with ⟨hm, _⟩
    exact (sortEmails_perm emails).mem_iff.mpr hm
  · intro k v hv
    rcases hmemval k v hv with ⟨_, hl⟩
    exact hl.symm
  · exact ((sortEmails_perm emails).pairwise_iff (fun hab => fun he => hab he.symm)).mpr h

theorem strongInv_removeOne (del : DeleteRemote) (s : Cache) (input : String)
    (h : StrongInv s) : StrongInv (removeOne del s input).1 := by
  rcases hk : s.index (lowerStr input) with _ | orig
  · rw [removeOne_notFound hk]; exact h
  · rcases hd : del orig with e | u
    · rw [removeOne_error hk hd]; exact h
    · cases u
      rw [removeOne_ok hk hd]
      obtain ⟨⟨inv1, inv2, inv3⟩, keylink, nocoll⟩ := h
      have hnd : s.entries.Nodup := nocoll.nodup
      have hkey : lowerStr input = lowerStr orig := keylink _ _ hk
      refine ⟨⟨?_, ?_, ?_⟩, ?_, ?_⟩
      · intro k v hv
        by_cases hq : k = lowerStr input
        · simp [indexDelete, hq] at hv
        · have : s.index k = some v := by simpa [indexDelete, hq] using hv
          exact inv1 k v this
      · intro a ha
        have ha' : a ∈ s.entries := mem_of_mem_removeFirst ha
        have h2 := inv2 a ha'
        by_cases hq : lowerStr a = lowerStr input
        · rw [hq] at h2
          rw [hk] at h2
          have : a = orig := (Option.some.inj h2).symm
          subst this
          exact absurd ha (not_mem_removeFirst_self hnd a)
        · show indexDelete s.index (lowerStr input) (lowerStr a) = some a
          simpa [indexDelete, hq] using h2
      · intro k v hv
        by_cases hq : k = lowerStr input
        · simp [indexDelete, hq] at hv
        · have hv' : s.index k = some v := by simpa [indexDelete, hq] using hv
          have hvm := inv3 k v hv'
          have hne : v ≠ orig := by
            intro he
            subst he
            exact hq ((keylink k v hv').trans hkey.symm)
          exact mem_removeFirst_of_ne hne hvm
      · intro k v hv
        by_cases hq : k = lowerStr input
        · simp [indexDelete, hq] at hv
        · exact keylink k v (by simpa [indexDelete, hq] using hv)
      · exact nocoll.sublist (removeFirst_sublist s.entries orig)

theorem reachable_strongInv {s : Cache} (h : Reachable s) : StrongInv s := by
  induction h with
  | init => exact strongInv_init
  | refresh remote fuel s s' emails _ hfetch hcoll hok _ =>
    have := refresh_of_fetch_ok hfetch
    rw [this] at hok
    have hs' : s' = { entries := sortEmails emails, index := buildIndex (sortEmails emails) } :=
      (Except.ok.inj hok).symm
    rw [hs']
    exact strongInv_refresh hcoll
  | removal del s input _ ih =>
    exact strongInv_removeOne del s input ih


/-- C1: if any page of the paginated fetch fails, refresh propagates that
error and the cache — entries and index — is exactly the pre-call state, so
a snapshot after the failed refresh equals one taken before. -/

theorem claim_C1 (remote : Remote) (fuel : Nat) (s : Cache) (e : String) (n : Nat)
    (h : ChainErrors remote none e n) (hfuel : n ≤ fuel) :
    refresh remote fuel = Except.error e ∧
    refreshState remote fuel s = s ∧
    snapshot (refreshState remote fuel s) = snapshot s := by
  have hf := fetchGo_error remote h fuel hfuel
  refine ⟨refresh_of_fetch_error hf, refreshState_of_fetch_error s hf, ?_⟩
  rw [refreshState_of_fetch_error s hf]

/-- Witness for C1 at a concrete two-call interaction whose second page
request fails. -/

theorem claim_C1_witness :
    refresh remoteErrW 5 = Except.error "boom" ∧
    refreshState remoteErrW 5 sampleCache = sampleCache ∧
    snapshot (refreshState remoteErrW 5 sampleCache) = snapshot sampleCache :=
  claim_C1 remoteErrW 5 sampleCache "boom" 2
    (ChainErrors.step none ["b@x.com"] "p2" "boom" 1 rfl
      (ChainErrors.here (some "p2") "boom" rfl))
    (by decide)

/-- C2 (amended): a fully successful refresh installs entries that are
exactly the multiset of fetched addresses in some case-insensitive
ascending order — precisely the `sort.Slice` contract `SortSliceOutput` —
together with an index built from the very entries installed with it (both
replaced in one swap), mapping each lowercased form to the address written
last by the build loop, i.e. the last element of the INSTALLED (sorted)
order with that lowercased form.  Every fetched address's lowercased form
is a key and every winner is a fetched address sharing the looked-up
lowercased form; but the winner among case-collisions is NOT necessarily
the later address in fetch order, because `sort.Slice` is unstable (see
the counterexample). -/

theorem claim_C2 (remote : Remote) (fuel : Nat) (s' : Cache) (emails : List String)
    (hf : (fetchGo remote fuel none).2 = Except.ok emails)
    (h : refresh remote fuel = Except.ok s') :
    SortSliceOutput emails s'.entries ∧
    s'.index = buildIndex s'.entries ∧
    (∀ k, s'.index k = (s'.entries.filter (fun e => lowerStr e == k)).getLast?) ∧
    (∀ e, e ∈ emails → ∃ v, s'.index (lowerStr e) = some v ∧ v ∈ emails ∧
      lowerStr v = lowerStr e) := by
  rw [refresh_of_fetch_ok hf] at h
  have hs' : s' = { entries := sortEmails emails, index := buildIndex (sortEmails emails) } :=
    (Except.ok.inj h).symm
  rw [hs']
  refine ⟨⟨sortEmails_perm emails, sortEmails_sorted emails⟩, rfl, ?_, ?_⟩
  · intro k
    exact buildIndex_eq (sortEmails emails) k
  · intro e he
    have he' : e ∈ sortEmails emails := (sortEmails_perm emails).mem_iff.mpr he
    have hne : (sortEmails emails).filter (fun x => lowerStr x == lowerStr e) ≠ [] := by
      intro hnil
      rw [List.filter_eq_nil_iff] at hnil
      exact hnil e he' (by simp)
    obtain ⟨v, hv⟩ := Option.isSome_iff_exists.mp (List.getLast?_isSome.mpr hne)
    have hvm := List.mem_of_getLast?_eq_some hv
    rcases List.mem_filter.mp hvm with ⟨hin, hp⟩
    refine ⟨v, ?_, (sortEmails_perm emails).mem_iff.mp hin, by simpa using hp⟩
    show buildIndex (sortEmails emails) (lowerStr e) = some v
    rw [buildIndex_eq]
    exact hv

/-- Counterexample to C2 as originally stated (the later address in fetch
order wins among case-collisions): for the fetch list
`["A@x.com", "a@x.com"]` the output `["a@x.com", "A@x.com"]` satisfies the
`sort.Slice` contract — it is a sorted permutation, and `sort.Slice`,
being unstable, may install either tie order — yet the index the build
loop derives from that installed slice maps the shared key `"a@x.com"` to
`"A@x.com"`, the EARLIER address in fetch order, while the later one is
`"a@x.com"`.  So the program does not guarantee fetch-order-wins. -/

theorem claim_C2_counterexample :
    SortSliceOutput ["A@x.com", "a@x.com"] ["a@x.com", "A@x.com"] ∧
    buildIndex ["a@x.com", "A@x.com"] "a@x.com" = some "A@x.com" ∧
    ((["A@x.com", "a@x.com"].filter (fun e => lowerStr e == "a@x.com")).getLast?
      = some "a@x.com") ∧
    ("A@x.com" : String) ≠ "a@x.com" := by
  refine ⟨⟨List.Perm.swap "A@x.com" "a@x.com" [], by decide⟩, rfl, rfl, by decide⟩

/-- Witness for C2 at a concrete two-page fetch. -/

theorem claim_C2_witness :
    SortSliceOutput ["b@x.com", "A@x.com", "c@x.com"] refreshedCacheW.entries ∧
    refreshedCacheW.index = buildIndex refreshedCacheW.entries ∧
    refreshedCacheW.index "a@x.com" =
      ((refreshedCacheW.entries.filter (fun e => lowerStr e == "a@x.com")).getLast?) ∧
    ∃ v, refreshedCacheW.index (lowerStr "b@x.com") = some v ∧
      v ∈ ["b@x.com", "A@x.com", "c@x.com"] ∧ lowerStr v = lowerStr "b@x.com" := by
  have h := claim_C2 remoteOkW 2 refreshedCacheW ["b@x.com", "A@x.com", "c@x.com"] rfl rfl
  exact ⟨h.1, h.2.1, h.2.2.1 "a@x.com", h.2.2.2 "b@x.com" (by decide)⟩

/-- C3: a removal whose lowercased input resolves to original-case `orig`
and whose remote delete succeeds reports `removed: orig` (original case,
not the input as typed), deletes the lowercase key from the index, and
removes the first occurrence of `orig` from the entries; both updates land
in the single new cache state (the code performs them inside one exclusive
critical section). -/

theorem claim_C3 (del : DeleteRemote) (s : Cache) (input orig : String)
    (h1 : s.index (lowerStr input) = some orig) (h2 : del orig = Except.ok ()) :
    (removeOne del s input).2 = "removed: " ++ orig ∧
    (removeOne del s input).1.index = indexDelete s.index (lowerStr input) ∧
    (removeOne del s input).1.index (lowerStr input) = none ∧
    (removeOne del s input).1.entries = removeFirst s.entries orig ∧
    ∀ l1 l2, s.entries = l1 ++ orig :: l2 → orig ∉ l1 →
      (removeOne del s input).1.entries = l1 ++ l2 := by
  rw [removeOne_ok h1 h2]
  refine ⟨rfl, rfl, by simp [indexDelete], rfl, ?_⟩
  intro l1 l2 hsplit hnot
  show removeFirst s.entries orig = l1 ++ l2
  rw [hsplit]
  exact removeFirst_append l2 hnot

/-- Witness for C3: `remove("a@x.com")` against a cache holding
`"A@x.com"` with a succeeding remote delete. -/

theorem claim_C3_witness :
    (removeOne delOkW sampleCache "a@x.com").2 = "removed: " ++ "A@x.com" ∧
    (removeOne delOkW sampleCache "a@x.com").1.index "a@x.com" = none ∧
    (removeOne delOkW sampleCache "a@x.com").1.entries = [] := by
  have h := claim_C3 delOkW sampleCache "a@x.com" "A@x.com" rfl rfl
  refine ⟨h.1, ?_, h.2.2.2.2 [] [] rfl (by simp)⟩
  have h3 := h.2.2.1
  have he : lowerStr "a@x.com" = "a@x.com" := by decide
  rw [he] at h3
  exact h3

/-- C4: a removal that does not succeed leaves the cache untouched and
reports per-item: not-found (with the input as given) when the lowercased
input is not an index key, or an error report carrying the input and the
remote error detail when the remote delete fails. -/

theorem claim_C4 (del : DeleteRemote) (s : Cache) (input : String) :
    (s.index (lowerStr input) = none →
      removeOne del s input = (s, "not found: " ++ input)) ∧
    (∀ orig e, s.index (lowerStr input) = some orig → del orig = Except.error e →
      removeOne del s input = (s, "error: " ++ input ++ " (" ++ e ++ ")")) :=
  ⟨fun h => removeOne_notFound h,
   fun _ _ h1 h2 => removeOne_error h1 h2⟩

/-- Witness for C4: a not-found input and a remote-delete failure, both
leaving the sample cache unchanged. -/

theorem claim_C4_witness :
    removeOne delOkW sampleCache "zz@x.com" = (sampleCache, "not found: " ++ "zz@x.com") ∧
    removeOne delErrW sampleCache "a@x.com" =
      (sampleCache, "error: " ++ "a@x.com" ++ " (" ++ "boom" ++ ")") :=
  ⟨(claim_C4 delOkW sampleCache "zz@x.com").1 rfl,
   (claim_C4 delErrW sampleCache "a@x.com").2 "A@x.com" "boom" rfl rfl⟩

/-- C5: with the address cached and the first remote delete succeeding,
removing the same input twice in a row yields `removed: <original case>`
then `not found: <input>`. -/

theorem claim_C5 (del : DeleteRemote) (s : Cache) (input orig : String)
    (h1 : s.index (lowerStr input) = some orig) (h2 : del orig = Except.ok ()) :
    (removeOne del s input).2 = "removed: " ++ orig ∧
    (removeOne del (removeOne del s input).1 input).2 = "not found: " ++ input := by
  rw [removeOne_ok h1 h2]
  refine ⟨rfl, ?_⟩
  rw [removeOne_notFound (by simp [indexDelete])]

/-- Witness for C5 on the sample cache. -/

theorem claim_C5_witness :
    (removeOne delOkW sampleCache "a@x.com").2 = "removed: " ++ "A@x.com" ∧
    (removeOne delOkW (removeOne delOkW sampleCache "a@x.com").1 "a@x.com").2 =
      "not found: " ++ "a@x.com" :=
  claim_C5 delOkW sampleCache "a@x.com" "A@x.com" rfl rfl

/-- C6: every reachable cache state — the initial empty one, the result of
any successful refresh whose fetched addresses are pairwise
case-collision-free (the claim's precondition), and the result of any
removal — satisfies the documented invariant: index keys are fixed by
lowercasing, every entry is indexed under its lowercased form with its own
original case, and every index value is an entry. -/

theorem claim_C6 (s : Cache) (h : Reachable s) : CacheInv s :=
  (reachable_strongInv h).1

/-- Witness for C6 at the initial empty cache. -/

theorem claim_C6_witness : CacheInv initCache :=
  claim_C6 initCache Reachable.init

/-- C7: for a well-formed `/remove` body, the emails string is split on
newline, lines are trimmed and empty ones dropped; the removals are
performed in input order and the results list has exactly one string per
remaining line, the i-th result being the not-found / removed / error
report for the i-th input evaluated against the cache state left by the
previous inputs. -/

theorem claim_C7 (del : DeleteRemote) (s : Cache) (emails : String) :
    (handleRemove del s emails).2.length = (parseInputs emails).length ∧
    ∀ i input, (parseInputs emails)[i]? = some input →
      ∃ r, (handleRemove del s emails).2[i]? = some r ∧
        ResultMatches del (processRemovals del s ((parseInputs emails).take i)).1 input r := by
  refine ⟨processRemovals_length del (parseInputs emails) s, ?_⟩
  intro i input h
  exact processRemovals_results del (parseInputs emails) s i input h

/-- Witness for C7 on the body `"a@x.com\nnotthere@x.com\n"` against the
sample cache. -/

theorem claim_C7_witness :
    (handleRemove delOkW sampleCache "a@x.com\nnotthere@x.com\n").2.length =
      (parseInputs "a@x.com\nnotthere@x.com\n").length ∧
    ∃ r, (handleRemove delOkW sampleCache "a@x.com\nnotthere@x.com\n").2[1]? = some r ∧
      ResultMatches delOkW
        (processRemovals delOkW sampleCache
          ((parseInputs "a@x.com\nnotthere@x.com\n").take 1)).1
        "notthere@x.com" r :=
  ⟨(claim_C7 delOkW sampleCache "a@x.com\nnotthere@x.com\n").1,
   (claim_C7 delOkW sampleCache "a@x.com\nnotthere@x.com\n").2 1 "notthere@x.com" (by decide)⟩

/-- C9: the fetch loop paginates exhaustively: on a remote serving a
cursor-linked chain of pages it returns the concatenation of all pages in
fetch order, and its remote calls are exactly: first with no cursor, then
once per returned cursor in order, each with page size 1000, stopping
exactly when a page has no cursor. -/

theorem claim_C9 (remote : Remote) (fuel : Nat) (pages : List (List String))
    (cursors : List String)
    (h : ServesChain remote none pages cursors) (hfuel : pages.length ≤ fuel) :
    (fetchGo remote fuel none).2 = Except.ok pages.flatten ∧
    (fetchGo remote fuel none).1 = (none :: cursors.map some).map (fun t => (t, 1000)) := by
  rw [fetchGo_chain remote h fuel hfuel]
  exact ⟨rfl, rfl⟩

/-- Witness for C9: the two-page remote. -/

theorem claim_C9_witness :
    (fetchGo remoteOkW 2 none).2 =
      Except.ok ([["b@x.com", "A@x.com"], ["c@x.com"]] : List (List String)).flatten ∧
    (fetchGo remoteOkW 2 none).1 =
      (none :: [("p2" : String)].map some).map (fun t => (t, 1000)) :=
  claim_C9 remoteOkW 2 [["b@x.com", "A@x.com"], ["c@x.com"]] ["p2"]
    (ServesChain.step none ["b@x.com", "A@x.com"] "p2" [["c@x.com"]] [] rfl
      (ServesChain.last (some "p2") ["c@x.com"] rfl))
    (by decide)

/-- C10: when the snapshot is empty the slice copied for `/list` is nil
and encodes as the JSON literal `null` (not `[]`); likewise a `/remove`
body with no non-empty lines produces a nil results slice, so the response
object's results field is `null`. -/

theorem claim_C10 (del : DeleteRemote) (s : Cache) (emails : String)
    (hs : snapshot s = []) (he : parseInputs emails = []) :
    listResponse s = JValue.null ∧
    listResponse s ≠ JValue.arr [] ∧
    removeResponse del s emails = JValue.obj [("results", JValue.null)] := by
  refine ⟨?_, ?_, ?_⟩
  · simp [listResponse, encodeGoStringSlice, hs]
  · simp [listResponse, encodeGoStringSlice, hs]
  · unfold removeResponse handleRemove
    rw [he]
    simp [processRemovals, encodeGoStringSlice]

/-- Witness for C10: the initial empty cache and a body of blank lines. -/

theorem claim_C10_witness :
    listResponse initCache = JValue.null ∧
    listResponse initCache ≠ JValue.arr [] ∧
    removeResponse delOkW initCache " \n  \n" = JValue.obj [("results", JValue.null)] :=
  claim_C10 delOkW initCache " \n  \n" rfl (by decide)

end Suppress
